import Mathlib

/-!
# Verification of the go-cronjob cron parser and scheduler

Shallow embedding of the six-field cron expression parser
(`cronexpression.go`) and the scheduler core (`AddJob`, `RemoveJob`,
`nextRunTime`, `isTimeMatching`, `timeUntilNextJob`).

Modelling conventions:
* Go `int` values become `Int`; field value sets become `List Int` in the
  order the Go code appends them.
* Tokens are handled as `List Char` (a Go string's runes); the API-level
  `ParseCronExpression` takes a `String` and works on its `.data`. The
  Go standard library split/case helpers are modelled by structurally
  recursive functions on `List Char` (`goSplit` for `strings.Split` with
  the one-rune separators used here, `goFields` for `strings.Fields`,
  `normalizeName` for lowercasing followed by title-casing).
* The distinct `fmt.Errorf` sites become constructors of `CronError`
  carrying the formatted data.
* Go `time.Time` (always used in UTC here) is modelled as `Nat`
  nanoseconds since the Unix epoch; component extraction follows the
  proleptic Gregorian calendar, matching Go's `time` package for
  post-1970 UTC instants. Go's zero `time.Time` is modelled as `0`
  (never a candidate produced by the search loop, which only yields
  whole-second instants strictly after its start).
* The Go recursion `parseField → parseStepField → parseField` is embedded
  with an explicit fuel parameter; one unit of fuel suffices because the
  base part of a step field is a `/`-free split segment.
-/

namespace Cronjob

/-- The distinct error sites of the Go parser/scheduler, one constructor
per `fmt.Errorf` call, carrying the data that is formatted into the
message. -/
inductive CronError where
  | fieldCount (got : Nat)
  | invalidValue (s : List Char)
  | valueOutOfRange (n : Int)
  | invalidStepField (s : List Char)
  | invalidStep (s : List Char)
  | invalidRange (s : List Char)
  | invalidRangeStart (s : List Char)
  | invalidRangeEnd (s : List Char)
  deriving DecidableEq, Repr

/-- Structure `CronExpression` (six-field variant): the normalized sets of allowed
values for each time component. -/
structure CronExpression where
  Seconds : List Int
  Minutes : List Int
  Hours : List Int
  DayOfMonth : List Int
  Month : List Int
  DayOfWeek : List Int
  deriving DecidableEq, Repr

/-- Map `monthNameToNumber`, as an association list on rune lists. -/
def monthNameToNumber : List (List Char × Int) :=
  [("Jan".data, 1), ("Feb".data, 2), ("Mar".data, 3), ("Apr".data, 4),
   ("May".data, 5), ("Jun".data, 6), ("Jul".data, 7), ("Aug".data, 8),
   ("Sep".data, 9), ("Oct".data, 10), ("Nov".data, 11), ("Dec".data, 12)]

/-- Map `dayNameToNumber`, as an association list on rune lists. -/
def dayNameToNumber : List (List Char × Int) :=
  [("Sun".data, 0), ("Mon".data, 1), ("Tue".data, 2), ("Wed".data, 3),
   ("Thu".data, 4), ("Fri".data, 5), ("Sat".data, 6)]

/-- Go's `strings.Split` for a one-rune separator: the substrings between
occurrences of `sep` (empty pieces included); never returns `[]`. -/
def goSplit (sep : Char) : List Char → List (List Char)
  | [] => [[]]
  | c :: rest =>
    match goSplit sep rest with
    | [] => [[]]
    | cur :: parts =>
      if c = sep then [] :: cur :: parts else (c :: cur) :: parts

/-- Splitting at every whitespace rune (empty pieces included). -/
def splitWhitespace : List Char → List (List Char)
  | [] => [[]]
  | c :: rest =>
    match splitWhitespace rest with
    | [] => [[]]
    | cur :: parts =>
      if c.isWhitespace then [] :: cur :: parts else (c :: cur) :: parts

/-- Go's `strings.Fields`: the whitespace-separated fields of the input,
with empty pieces dropped. -/
def goFields (s : String) : List (List Char) :=
  (splitWhitespace s.data).filter (fun f => f ≠ [])

/-- Value of a digit string (helper for `atoi`). -/
def digitsToNat (cs : List Char) : Nat :=
  cs.foldl (fun n c => n * 10 + (c.toNat - 48)) 0

/-- Go's `strconv.Atoi`: optional single leading sign, then one or more
decimal digits; overflow past `int64` is an error. `none` models a
non-nil error return. -/
def atoi (cs : List Char) : Option Int :=
  let signDigits : Int × List Char :=
    match cs with
    | '-' :: rest => (-1, rest)
    | '+' :: rest => (1, rest)
    | _ => (1, cs)
  let sign := signDigits.1
  let digits := signDigits.2
  if digits = [] then none
  else if digits.all Char.isDigit then
    let n : Int := sign * (digitsToNat digits : Int)
    if n < -(2 ^ 63) ∨ 2 ^ 63 ≤ n then none else some n
  else none

/-- Go's `cases.Title(language.Und).String(strings.ToLower(part))`.
For any token reaching a name table (a split segment, so free of `,`,
`-`, `/` and whitespace) the Go title caser capitalizes the first letter
of the lowercased token, which is what decides a three-letter-key table
lookup. -/
def normalizeName (cs : List Char) : List Char :=
  match cs.map Char.toLower with
  | [] => []
  | c :: rest => c.toUpper :: rest

/-- The Go `for i := lo; i <= hi; i++ { values = append(values, i) }`
loop: the integers from `lo` to `hi` inclusive (empty when `hi < lo`). -/
def intRange (lo hi : Int) : List Int :=
  (List.range (hi + 1 - lo).toNat).map (fun i => lo + Int.ofNat i)

/-- Function `parseValue`: named lookup first (no range check on named values!),
then `strconv.Atoi` with an explicit `[minVal, maxVal]` bounds check. -/
def parseValue (part : List Char) (minVal maxVal : Int)
    (nameToNumber : List (List Char × Int)) : Except CronError Int :=
  match nameToNumber.lookup (normalizeName part) with
  | some num => .ok num
  | none =>
    match atoi part with
    | none => .error (.invalidValue part)
    | some num =>
      if num < minVal ∨ num > maxVal then .error (.valueOutOfRange num)
      else .ok num

/-- Function `parseRange`: split on `-`, exactly two parts, resolve both ends via
`parseValue` (wrapping their errors), then emit either the contiguous
run `[start..end]` or, when `start > end`, the wraparound
`[start..maxVal] ++ [minVal..end]`. -/
def parseRange (part : List Char) (minVal maxVal : Int)
    (nameToNumber : List (List Char × Int)) : Except CronError (List Int) :=
  match goSplit '-' part with
  | [s1, s2] =>
    match parseValue s1 minVal maxVal nameToNumber with
    | .error _ => .error (.invalidRangeStart s1)
    | .ok startVal =>
      match parseValue s2 minVal maxVal nameToNumber with
      | .error _ => .error (.invalidRangeEnd s2)
      | .ok endVal =>
        if startVal > endVal then
          .ok (intRange startVal maxVal ++ intRange minVal endVal)
        else
          .ok (intRange startVal endVal)
  | _ => .error (.invalidRange part)

/-- Function `parseField`: `*` expands to the whole legal range; a field containing
`/` is a step field (the `parseStepField` logic, inlined here so the
recursion is structural on the fuel — see `parseStepField` below for the
standalone function and `parseField_slash` for their agreement);
otherwise the comma-separated parts are parsed in order (ranges for parts
containing `-`, single values otherwise) with the first error aborting
the field. One unit of fuel suffices for the Go recursion
`parseField → parseStepField → parseField`, whose depth is 1 because a
`/`-split segment contains no `/`. -/
def parseField : Nat → List Char → Int → Int → List (List Char × Int) →
    Except CronError (List Int)
  | fuel, field, minVal, maxVal, nameToNumber =>
    if field = ['*'] then .ok (intRange minVal maxVal)
    else if field.contains '/' then
      match goSplit '/' field with
      | [base, stepStr] =>
        match fuel with
        | 0 => .error (.invalidStepField field)
        | f + 1 =>
          match parseField f base minVal maxVal nameToNumber with
          | .error e => .error e
          | .ok baseValues =>
            match atoi stepStr with
            | none => .error (.invalidStep stepStr)
            | some step =>
              if step ≤ 0 then .error (.invalidStep stepStr)
              else .ok (baseValues.filter (fun val => (val - minVal).tmod step == 0))
      | _ => .error (.invalidStepField field)
    else
      (goSplit ',' field).foldlM
        (fun values part =>
          if part.contains '-' then
            (parseRange part minVal maxVal nameToNumber).map
              (fun rangeValues => values ++ rangeValues)
          else
            (parseValue part minVal maxVal nameToNumber).map
              (fun num => values ++ [num]))
        []

/-- Function `parseStepField`: split on `/`, exactly two parts; recursively parse
the base with the same grammar (`parseField`); the step must be a
positive integer; keep the base members `v` with
`(v - minVal) % step == 0` (Go's `%` is truncated division remainder,
`Int.tmod`). The fuel-0 case is unreachable from `ParseCronExpression`
since a `/`-split segment contains no `/`. -/
def parseStepField (fuel : Nat) (field : List Char) (minVal maxVal : Int)
    (nameToNumber : List (List Char × Int)) : Except CronError (List Int) :=
  match goSplit '/' field with
  | [base, stepStr] =>
    match fuel with
    | 0 => .error (.invalidStepField field)
    | f + 1 =>
      match parseField f base minVal maxVal nameToNumber with
      | .error e => .error e
      | .ok baseValues =>
        match atoi stepStr with
        | none => .error (.invalidStep stepStr)
        | some step =>
          if step ≤ 0 then .error (.invalidStep stepStr)
          else .ok (baseValues.filter (fun val => (val - minVal).tmod step == 0))
  | _ => .error (.invalidStepField field)

/-- Function `ParseCronExpression` (six-field variant): exactly 6
whitespace-separated fields — seconds [0,59], minutes [0,59], hours
[0,23], day-of-month [1,31], month [1,12] (with month names), weekday
[0,6] (with day names) — failing atomically on the first bad field. -/
def ParseCronExpression (expr : String) : Except CronError CronExpression :=
  let fields := goFields expr
  if h : fields.length = 6 then
    match parseField 1 (fields.get ⟨0, by omega⟩) 0 59 [] with
    | .error e => .error e
    | .ok seconds =>
    match parseField 1 (fields.get ⟨1, by omega⟩) 0 59 [] with
    | .error e => .error e
    | .ok minutes =>
    match parseField 1 (fields.get ⟨2, by omega⟩) 0 23 [] with
    | .error e => .error e
    | .ok hours =>
    match parseField 1 (fields.get ⟨3, by omega⟩) 1 31 [] with
    | .error e => .error e
    | .ok dayOfMonth =>
    match parseField 1 (fields.get ⟨4, by omega⟩) 1 12 monthNameToNumber with
    | .error e => .error e
    | .ok month =>
    match parseField 1 (fields.get ⟨5, by omega⟩) 0 6 dayNameToNumber with
    | .error e => .error e
    | .ok dayOfWeek =>
      .ok ⟨seconds, minutes, hours, dayOfMonth, month, dayOfWeek⟩
  else
    .error (.fieldCount fields.length)

/-! ## Time model

Go `time.Time` in UTC, as `Nat` nanoseconds since the Unix epoch. -/

/-- Nanoseconds in one second (`time.Second`). -/
def nsPerSecond : Nat := 1000000000

/-- Component `t.Second()`. -/
def timeSecond (t : Nat) : Nat := t / nsPerSecond % 60

/-- Component `t.Minute()`. -/
def timeMinute (t : Nat) : Nat := t / (60 * nsPerSecond) % 60

/-- Component `t.Hour()`. -/
def timeHour (t : Nat) : Nat := t / (3600 * nsPerSecond) % 24

/-- Whole days since 1970-01-01. -/
def daysSinceEpoch (t : Nat) : Nat := t / (86400 * nsPerSecond)

/-- Component `int(t.Weekday())`: Sunday = 0. 1970-01-01 was a Thursday (= 4). -/
def timeWeekday (t : Nat) : Nat := (daysSinceEpoch t + 4) % 7

/-- Civil (year, month, day) of a day count since 1970-01-01, proleptic
Gregorian (the standard era-based conversion, as Go's `time.Date`). -/
def civilOfDays (days : Nat) : Nat × Nat × Nat :=
  let z := days + 719468
  let era := z / 146097
  let doe := z % 146097
  let yoe := (doe - doe / 1460 + doe / 36524 - doe / 146096) / 365
  let y := yoe + era * 400
  let doy := doe - (365 * yoe + yoe / 4 - yoe / 100)
  let mp := (5 * doy + 2) / 153
  let d := doy - (153 * mp + 2) / 5 + 1
  let m := if mp < 10 then mp + 3 else mp - 9
  (if m ≤ 2 then y + 1 else y, m, d)

/-- Component `t.Day()`. -/
def timeDay (t : Nat) : Nat := (civilOfDays (daysSinceEpoch t)).2.2

/-- Component `int(t.Month())`. -/
def timeMonth (t : Nat) : Nat := (civilOfDays (daysSinceEpoch t)).2.1

/-- The linear-scan `contains` over a field value set. -/
def contains (list : List Int) (value : Int) : Bool :=
  list.any (fun v => v == value)

/-- Predicate `isTimeMatching`: each of the six components of `t` must be in the
corresponding field set; the Go code maps weekday 0 to 7 and then takes
`% 7`, which restores 0 for Sunday. -/
def isTimeMatching (expr : CronExpression) (t : Nat) : Bool :=
  if !contains expr.Seconds (timeSecond t : Int) then false
  else if !contains expr.Minutes (timeMinute t : Int) then false
  else if !contains expr.Hours (timeHour t : Int) then false
  else if !contains expr.DayOfMonth (timeDay t : Int) then false
  else if !contains expr.Month (timeMonth t : Int) then false
  else
    let weekday := timeWeekday t
    let weekday' := if weekday = 0 then 7 else weekday
    contains expr.DayOfWeek (weekday' % 7 : Nat)

/-- The iteration cap of `nextRunTime`. -/
def maxIterations : Nat := 1000000

/-- The `for range maxIterations` scan of `nextRunTime`: test the
candidate, else advance one second; zero time when fuel runs out. -/
def nextRunAux (expr : CronExpression) : Nat → Nat → Nat
  | 0, _ => 0
  | n + 1, t => if isTimeMatching expr t then t else nextRunAux expr n (t + nsPerSecond)

/-- Function `nextRunTime`: start at `fromTime.Add(time.Second -
time.Duration(fromTime.Nanosecond()))` — the first whole second strictly
after `fromTime` — and scan second by second up to `maxIterations`
candidates; the zero time (here `0`) reports no upcoming run. -/
def nextRunTime (expr : CronExpression) (fromTime : Nat) : Nat :=
  nextRunAux expr maxIterations (fromTime + (nsPerSecond - fromTime % nsPerSecond))

/-! ## Scheduler registry operations

`CronScheduler.Jobs` is the `List (Job τ)`; the Go methods mutate the
slice under a lock and return an error value, modelled as
state-in/state-out plus an optional error. Tasks (`func()`) are opaque
values of a type parameter `τ`. -/

/-- A `Job`: a parsed schedule and an opaque task. -/
structure Job (τ : Type) where
  Schedule : CronExpression
  Task : τ

/-- Method `AddJob`: parse, and on success append one job; on failure return the
parser's error and leave the registry unchanged. -/
def AddJob {τ : Type} (jobs : List (Job τ)) (expr : String) (task : τ) :
    List (Job τ) × Option CronError :=
  match ParseCronExpression expr with
  | .error err => (jobs, some err)
  | .ok schedule => (jobs ++ [⟨schedule, task⟩], none)

/-- Method `RemoveJob`: out-of-range index is an error leaving the registry
unchanged; otherwise `append(Jobs[:index], Jobs[index+1:]...)`. -/
def RemoveJob {τ : Type} (jobs : List (Job τ)) (index : Int) :
    List (Job τ) × Option String :=
  if index < 0 ∨ (jobs.length : Int) ≤ index then
    (jobs, some ("index out of range"))
  else
    (jobs.take index.toNat ++ jobs.drop (index.toNat + 1), none)

/-- The one-year sentinel `time.Hour * 24 * 365`, in nanoseconds. -/
def yearNs : Int := 3600 * 24 * 365 * (nsPerSecond : Int)

/-- Method `timeUntilNextJob`: fold over the jobs keeping the smallest
`nextRunTime - now`, skipping jobs whose `nextRunTime` is the zero time,
starting from the one-year sentinel. -/
def timeUntilNextJob {τ : Type} (jobs : List (Job τ)) (now : Nat) : Int :=
  jobs.foldl
    (fun minDuration job =>
      let nextRun := nextRunTime job.Schedule now
      if nextRun = 0 then minDuration
      else
        let duration : Int := (nextRun : Int) - (now : Int)
        if duration < minDuration then duration else minDuration)
    yearNs

/-- Specification-side helper: the list of `nextRunTime - now` durations
of the jobs whose `nextRunTime` resolved (is not the zero time), in
registry order. -/
def nextDurations {τ : Type} (jobs : List (Job τ)) (now : Nat) : List Int :=
  jobs.filterMap
    (fun job =>
      if nextRunTime job.Schedule now = 0 then none
      else some ((nextRunTime job.Schedule now : Int) - (now : Int)))

/-- Decidable equality of parser results, for concrete evaluation. -/
instance {ε α : Type} [DecidableEq ε] [DecidableEq α] : DecidableEq (Except ε α) :=
  fun a b =>
    match a, b with
    | .ok x, .ok y =>
      if h : x = y then .isTrue (by rw [h]) else .isFalse (by intro hc; cases hc; exact h rfl)
    | .error x, .error y =>
      if h : x = y then .isTrue (by rw [h]) else .isFalse (by intro hc; cases hc; exact h rfl)
    | .ok _, .error _ => .isFalse (by intro hc; cases hc)
    | .error _, .ok _ => .isFalse (by intro hc; cases hc)

/-! ## Helper lemmas -/

theorem mem_intRange (lo hi v : Int) : v ∈ intRange lo hi ↔ lo ≤ v ∧ v ≤ hi := by
  unfold intRange
  simp only [List.mem_map, List.mem_range, Int.ofNat_eq_coe]
  constructor
  · rintro ⟨i, hilt, rfl⟩
    omega
  · rintro ⟨h1, h2⟩
    exact ⟨(v - lo).toNat, by omega, by omega⟩

theorem length_intRange (lo hi : Int) : (intRange lo hi).length = (hi + 1 - lo).toNat := by
  unfold intRange
  rw [List.length_map, List.length_range]

theorem contains_iff (l : List Int) (v : Int) : contains l v = true ↔ v ∈ l := by
  unfold contains
  rw [List.any_eq_true]
  constructor
  · rintro ⟨x, hx, hbeq⟩
    rw [beq_iff_eq] at hbeq
    rwa [← hbeq]
  · intro hv
    exact ⟨v, hv, beq_self_eq_true v⟩

theorem timeWeekday_lt (t : Nat) : timeWeekday t < 7 :=
  Nat.mod_lt _ (by norm_num)

theorem weekday_adjust_eq (t : Nat) :
    (if timeWeekday t = 0 then 7 else timeWeekday t) % 7 = timeWeekday t := by
  have h7 := timeWeekday_lt t
  split <;> omega

theorem isTimeMatching_eq (e : CronExpression) (t : Nat) :
    isTimeMatching e t =
      (contains e.Seconds (timeSecond t : Int) &&
       contains e.Minutes (timeMinute t : Int) &&
       contains e.Hours (timeHour t : Int) &&
       contains e.DayOfMonth (timeDay t : Int) &&
       contains e.Month (timeMonth t : Int) &&
       contains e.DayOfWeek (timeWeekday t : Int)) := by
  unfold isTimeMatching
  cases contains e.Seconds (timeSecond t : Int) <;>
    cases contains e.Minutes (timeMinute t : Int) <;>
    cases contains e.Hours (timeHour t : Int) <;>
    cases contains e.DayOfMonth (timeDay t : Int) <;>
    cases contains e.Month (timeMonth t : Int) <;>
    simp [weekday_adjust_eq]

/-- C1: `isTimeMatching expr t` is true iff all six components of `t`
(second, minute, hour, day-of-month, month, weekday with Sunday = 0) are
members of the corresponding field sets; in particular the expression
`"30 15 14 1 1 *"` matches 2023-01-01T14:15:30Z (Unix second 1672582530)
and does not match 2023-01-01T14:15:31Z. -/
theorem isTimeMatching_component_membership :
    (∀ (e : CronExpression) (t : Nat),
        isTimeMatching e t = true ↔
          ((timeSecond t : Int) ∈ e.Seconds ∧ (timeMinute t : Int) ∈ e.Minutes ∧
           (timeHour t : Int) ∈ e.Hours ∧ (timeDay t : Int) ∈ e.DayOfMonth ∧
           (timeMonth t : Int) ∈ e.Month ∧ (timeWeekday t : Int) ∈ e.DayOfWeek))
    ∧ (ParseCronExpression ("30 15 14 1 1 *")).toOption.map
        (fun e => isTimeMatching e (1672582530 * nsPerSecond)) = some true
    ∧ (ParseCronExpression ("30 15 14 1 1 *")).toOption.map
        (fun e => isTimeMatching e (1672582531 * nsPerSecond)) = some false := by
  refine ⟨fun e t => ?_, by decide, by decide⟩
  rw [isTimeMatching_eq]
  simp only [Bool.and_eq_true, contains_iff, and_assoc]

/-- C8: an input whose whitespace-separated field count is not exactly 6
makes `ParseCronExpression` fail with the field-count error (carrying the
actual count), returning no expression. -/
theorem parse_fails_on_field_count (s : String) (h : (goFields s).length ≠ 6) :
    ParseCronExpression s = .error (.fieldCount (goFields s).length) := by
  unfold ParseCronExpression
  rw [dif_neg h]

/-- Witness for C8 at the three-field input `"* * *"`. -/
theorem parse_fails_on_field_count_witness :
    ParseCronExpression ("* * *") = .error (.fieldCount (goFields ("* * *")).length) :=
  parse_fails_on_field_count ("* * *") (by decide)

/-- C3: a range whose resolved endpoints satisfy `a > b` wraps around:
the result is the list `[a..max] ++ [min..b]`, whose members are exactly
the set `[a,max] ∪ [min,b]`; in particular weekday `Fri-Mon` yields
`[5, 6, 0, 1]`. -/
theorem parseRange_wraparound :
    (∀ (part s1 s2 : List Char) (minVal maxVal a b : Int)
        (table : List (List Char × Int)),
        goSplit '-' part = [s1, s2] →
        parseValue s1 minVal maxVal table = .ok a →
        parseValue s2 minVal maxVal table = .ok b →
        a > b →
        parseRange part minVal maxVal table
            = .ok (intRange a maxVal ++ intRange minVal b)
          ∧ ∀ v : Int, v ∈ intRange a maxVal ++ intRange minVal b ↔
              ((a ≤ v ∧ v ≤ maxVal) ∨ (minVal ≤ v ∧ v ≤ b)))
    ∧ parseRange ("Fri-Mon".data) 0 6 dayNameToNumber = .ok [5, 6, 0, 1] := by
  constructor
  · intro part s1 s2 minVal maxVal a b table hsplit ha hb hgt
    constructor
    · unfold parseRange
      rw [hsplit]
      simp only [ha, hb]
      rw [if_pos hgt]
    · intro v
      simp [List.mem_append, mem_intRange]
  · decide

/-- C6: `AddJob` either appends exactly one job (built from the parsed
schedule and the task) to the end of the registry and reports no error,
or — when parsing fails — reports the parser's error unchanged and
returns the registry exactly as it was. -/
theorem AddJob_appends_or_leaves_unchanged {τ : Type} (jobs : List (Job τ))
    (expr : String) (task : τ) :
    (∀ sched, ParseCronExpression expr = .ok sched →
        AddJob jobs expr task = (jobs ++ [⟨sched, task⟩], none))
    ∧ (∀ err, ParseCronExpression expr = .error err →
        AddJob jobs expr task = (jobs, some err)) := by
  constructor
  · intro sched hok
    unfold AddJob
    rw [hok]
  · intro err herr
    unfold AddJob
    rw [herr]

/-- C7: `RemoveJob` fails with the index-out-of-range error and leaves
the sequence unchanged when `index` is negative or at least the current
length; otherwise it succeeds, shortening the list by one, keeping every
position before `index` and shifting every later position down by one. -/
theorem RemoveJob_valid_or_out_of_range {τ : Type} (jobs : List (Job τ))
    (index : Int) :
    ((index < 0 ∨ (jobs.length : Int) ≤ index) →
        RemoveJob jobs index = (jobs, some ("index out of range")))
    ∧ ((0 ≤ index ∧ index < (jobs.length : Int)) →
        (RemoveJob jobs index).2 = none
        ∧ (RemoveJob jobs index).1.length + 1 = jobs.length
        ∧ (∀ j : Nat, (j : Int) < index →
            (RemoveJob jobs index).1[j]? = jobs[j]?)
        ∧ (∀ j : Nat, index ≤ (j : Int) →
            (RemoveJob jobs index).1[j]? = jobs[j + 1]?)) := by
  constructor
  · intro h
    unfold RemoveJob
    rw [if_pos h]
  · rintro ⟨h0, hlen⟩
    have hcond : ¬(index < 0 ∨ (jobs.length : Int) ≤ index) := by omega
    have hres : RemoveJob jobs index
        = (jobs.take index.toNat ++ jobs.drop (index.toNat + 1), none) := by
      unfold RemoveJob
      rw [if_neg hcond]
    have hn : index.toNat < jobs.length := by omega
    refine ⟨by rw [hres], ?_, ?_, ?_⟩
    · rw [hres]
      simp only [List.length_append, List.length_take, List.length_drop]
      omega
    · intro j hj
      rw [hres]
      have hjn : j < index.toNat := by omega
      rw [List.getElem?_append_left
            (by simp only [List.length_take]; omega)]
      rw [List.getElem?_take_of_lt hjn]
    · intro j hj
      rw [hres]
      have hjn : index.toNat ≤ j := by omega
      rw [List.getElem?_append_right
            (by simp only [List.length_take]; omega)]
      rw [List.getElem?_drop]
      congr 1
      simp only [List.length_take]
      omega

/-- C5: a step field `a/step` parses its base part with the same field
grammar and keeps exactly the base members `v` with
`(v − min) mod step == 0`; a step part that is not a positive integer
(non-numeric, zero, or negative) makes the field fail with the step
error. -/
theorem parseStepField_filters_base (fuel : Nat) (field base stepStr : List Char)
    (minVal maxVal : Int) (table : List (List Char × Int)) (baseValues : List Int)
    (hsplit : goSplit '/' field = [base, stepStr])
    (hbase : parseField fuel base minVal maxVal table = .ok baseValues) :
    (∀ step : Int, atoi stepStr = some step → 0 < step →
        parseStepField (fuel + 1) field minVal maxVal table
          = .ok (baseValues.filter (fun v => (v - minVal).tmod step == 0)))
    ∧ ((atoi stepStr = none ∨ ∃ step : Int, step ≤ 0 ∧ atoi stepStr = some step) →
        parseStepField (fuel + 1) field minVal maxVal table
          = .error (.invalidStep stepStr)) := by
  constructor
  · intro step hstep hpos
    unfold parseStepField
    rw [hsplit]
    simp only [hbase, hstep]
    rw [if_neg (by omega)]
  · rintro (hn | ⟨step, hle, hsome⟩)
    · unfold parseStepField
      rw [hsplit]
      simp only [hbase, hn]
    · unfold parseStepField
      rw [hsplit]
      simp only [hbase, hsome]
      rw [if_pos hle]

/-- Witness for C5 at `*/15` over the seconds bounds `[0, 59]`. -/
theorem parseStepField_filters_base_witness :
    parseStepField 1 ("*/15".data) 0 59 []
      = .ok ((intRange 0 59).filter (fun v => (v - 0).tmod 15 == 0)) :=
  (parseStepField_filters_base 0 ("*/15".data) ("*".data) ("15".data) 0 59 []
    (intRange 0 59) (by decide) (by decide)).1 15 (by decide) (by decide)

/-- C10: a `/`-free field token containing `-` is dispatched to the range
parser (stated per comma-part: a token that is its own single comma part);
hence the negative literal `-5` is not parsed as the integer −5 nor
rejected as out of range, but splits into an empty range start and fails
with the invalid-range-start error, and a token with more than one `-`
fails as a malformed range. The hypothesis that the name table has no
entry for the empty token holds for all three tables the parser uses. -/
theorem parseField_dash_is_range (fuel : Nat) (minVal maxVal : Int)
    (table : List (List Char × Int))
    (htab : table.lookup ([] : List Char) = none) :
    parseField fuel ("-5".data) minVal maxVal table = .error (.invalidRangeStart [])
    ∧ parseField fuel ("1-2-3".data) minVal maxVal table
        = .error (.invalidRange ("1-2-3".data))
    ∧ (∀ part : List Char, part.contains '-' = true → part.contains '/' = false →
        part ≠ ['*'] → goSplit ',' part = [part] →
        parseField fuel part minVal maxVal table
          = parseRange part minVal maxVal table) := by
  have third : ∀ part : List Char, part.contains '-' = true →
      part.contains '/' = false → part ≠ ['*'] → goSplit ',' part = [part] →
      parseField fuel part minVal maxVal table
        = parseRange part minVal maxVal table := by
    intro part hdash hslash hne hsplit
    unfold parseField
    rw [if_neg hne, hslash]
    simp only [Bool.false_eq_true, if_false]
    rw [hsplit]
    simp only [List.foldlM, hdash, if_true]
    cases hr : parseRange part minVal maxVal table <;> rfl
  refine ⟨?_, ?_, third⟩
  · have hpv : parseValue ([] : List Char) minVal maxVal table
        = .error (.invalidValue []) := by
      unfold parseValue
      rw [show normalizeName ([] : List Char) = [] from rfl, htab]
      rfl
    rw [third ("-5".data) (by decide) (by decide) (by decide) (by decide)]
    unfold parseRange
    rw [show goSplit '-' ("-5".data) = [[], ['5']] from by decide]
    simp only [hpv]
  · rw [third ("1-2-3".data) (by decide) (by decide) (by decide) (by decide)]
    unfold parseRange
    rw [show goSplit '-' ("1-2-3".data) = [['1'], ['2'], ['3']] from by decide]

/-- Witness for C10 at the weekday bounds and day-name table. -/
theorem parseField_dash_is_range_witness :
    parseField 1 ("-5".data) 0 6 dayNameToNumber
      = .error (.invalidRangeStart []) :=
  (parseField_dash_is_range 1 0 6 dayNameToNumber (by decide)).1

theorem nextRunAux_characterization (e : CronExpression) :
    ∀ (n t : Nat),
      (∃ k, k < n ∧ isTimeMatching e (t + k * nsPerSecond) = true
          ∧ nextRunAux e n t = t + k * nsPerSecond
          ∧ ∀ j, j < k → isTimeMatching e (t + j * nsPerSecond) = false)
      ∨ (nextRunAux e n t = 0
          ∧ ∀ k, k < n → isTimeMatching e (t + k * nsPerSecond) = false) := by
  intro n
  induction n with
  | zero =>
    intro t
    exact .inr ⟨rfl, fun k hk => absurd hk (Nat.not_lt_zero k)⟩
  | succ m ih =>
    intro t
    cases hm : isTimeMatching e t with
    | true =>
      refine .inl ⟨0, Nat.succ_pos m, ?_, ?_, fun j hj => absurd hj (Nat.not_lt_zero j)⟩
      · simpa using hm
      · simp [nextRunAux, hm]
    | false =>
      have haux : nextRunAux e (m + 1) t = nextRunAux e m (t + nsPerSecond) := by
        simp [nextRunAux, hm]
      have hshift : ∀ i : Nat,
          t + nsPerSecond + i * nsPerSecond = t + (i + 1) * nsPerSecond := by
        intro i; ring
      rcases ih (t + nsPerSecond) with ⟨k, hk, hmatch, heq, hmin⟩ | ⟨heq, hall⟩
      · refine .inl ⟨k + 1, by omega, ?_, ?_, ?_⟩
        · rwa [hshift k] at hmatch
        · rw [haux, heq, hshift k]
        · intro j hj
          cases j with
          | zero => simpa using hm
          | succ i =>
            have hi := hmin i (by omega)
            rwa [hshift i] at hi
      · refine .inr ⟨by rw [haux, heq], ?_⟩
        intro k hk
        cases k with
        | zero => simpa using hm
        | succ i =>
          have hi := hall i (by omega)
          rwa [hshift i] at hi

/-- C2: `nextRunTime` starts at the beginning of the second after
`fromTime` (the start value is a whole second, strictly after `fromTime`
and at most one second later), advances one second per candidate, and
returns the first candidate matching the expression; if none of the one
million candidates matches it returns the zero instant. -/
theorem nextRunTime_first_match (e : CronExpression) (fromTime : Nat) :
    ((fromTime + (nsPerSecond - fromTime % nsPerSecond)) % nsPerSecond = 0
      ∧ fromTime < fromTime + (nsPerSecond - fromTime % nsPerSecond)
      ∧ fromTime + (nsPerSecond - fromTime % nsPerSecond) ≤ fromTime + nsPerSecond)
    ∧ ((∃ k, k < maxIterations
          ∧ isTimeMatching e
              (fromTime + (nsPerSecond - fromTime % nsPerSecond) + k * nsPerSecond) = true
          ∧ nextRunTime e fromTime
              = fromTime + (nsPerSecond - fromTime % nsPerSecond) + k * nsPerSecond
          ∧ ∀ j, j < k → isTimeMatching e
              (fromTime + (nsPerSecond - fromTime % nsPerSecond) + j * nsPerSecond) = false)
      ∨ (nextRunTime e fromTime = 0
          ∧ ∀ k, k < maxIterations → isTimeMatching e
              (fromTime + (nsPerSecond - fromTime % nsPerSecond) + k * nsPerSecond)
                = false)) := by
  constructor
  · refine ⟨?_, ?_, ?_⟩ <;> (simp only [nsPerSecond]; omega)
  · exact nextRunAux_characterization e maxIterations
      (fromTime + (nsPerSecond - fromTime % nsPerSecond))

theorem nextRunTime_pos_bound (e : CronExpression) (t : Nat)
    (h : nextRunTime e t ≠ 0) :
    t < nextRunTime e t ∧ nextRunTime e t ≤ t + maxIterations * nsPerSecond := by
  rcases nextRunAux_characterization e maxIterations
      (t + (nsPerSecond - t % nsPerSecond)) with ⟨k, hk, _, heq, _⟩ | ⟨heq, _⟩
  · unfold nextRunTime
    rw [heq]
    simp only [maxIterations, nsPerSecond] at hk ⊢
    have ht : t % 1000000000 < 1000000000 := Nat.mod_lt _ (by norm_num)
    constructor
    · omega
    · have : k * 1000000000 ≤ 999999 * 1000000000 := by
        have : k ≤ 999999 := by omega
        exact Nat.mul_le_mul_right _ this
      omega
  · exact absurd (by unfold nextRunTime; rw [heq]) h

theorem foldl_min_init (l : List Int) : ∀ a : Int, l.foldl min a ≤ a := by
  induction l with
  | nil => intro a; exact le_refl a
  | cons x xs ih =>
    intro a
    rw [List.foldl_cons]
    exact le_trans (ih (min a x)) (min_le_left a x)

theorem foldl_min_le (l : List Int) : ∀ (a d : Int), d ∈ l → l.foldl min a ≤ d := by
  induction l with
  | nil => intro a d hd; cases hd
  | cons x xs ih =>
    intro a d hd
    rw [List.foldl_cons]
    rcases List.mem_cons.mp hd with rfl | hmem
    · exact le_trans (foldl_min_init xs (min a d)) (min_le_right a d)
    · exact ih (min a x) d hmem

theorem foldl_min_mem (l : List Int) : ∀ a : Int, l.foldl min a = a ∨ l.foldl min a ∈ l := by
  induction l with
  | nil => intro a; exact .inl rfl
  | cons x xs ih =>
    intro a
    rw [List.foldl_cons]
    rcases ih (min a x) with h | h
    · rw [h]
      rcases min_choice a x with h2 | h2
      · exact .inl h2
      · exact .inr (by rw [h2]; exact List.mem_cons_self x xs)
    · exact .inr (List.mem_cons_of_mem x h)

theorem timeUntilNextJob_eq_foldl {τ : Type} (jobs : List (Job τ)) (now : Nat) :
    timeUntilNextJob jobs now = (nextDurations jobs now).foldl min yearNs := by
  unfold timeUntilNextJob nextDurations
  generalize yearNs = a
  induction jobs generalizing a with
  | nil => rfl
  | cons j js ih =>
    simp only [List.foldl_cons, List.filterMap_cons]
    by_cases hz : nextRunTime j.Schedule now = 0
    · rw [if_pos hz, if_pos hz]
      exact ih a
    · rw [if_neg hz, if_neg hz]
      rw [List.foldl_cons]
      have hmin : (if (nextRunTime j.Schedule now : Int) - (now : Int) < a
            then (nextRunTime j.Schedule now : Int) - (now : Int) else a)
          = min a ((nextRunTime j.Schedule now : Int) - (now : Int)) := by
        rw [min_def]
        split <;> split <;> omega
      rw [hmin]
      exact ih (min a ((nextRunTime j.Schedule now : Int) - (now : Int)))

theorem nextDurations_pos_lt_year {τ : Type} (jobs : List (Job τ)) (now : Nat) :
    ∀ d ∈ nextDurations jobs now, 0 < d ∧ d < yearNs := by
  intro d hd
  unfold nextDurations at hd
  rw [List.mem_filterMap] at hd
  obtain ⟨job, hjob, hsel⟩ := hd
  by_cases hz : nextRunTime job.Schedule now = 0
  · rw [if_pos hz] at hsel; cases hsel
  · rw [if_neg hz] at hsel
    injection hsel with h
    obtain ⟨h1, h2⟩ := nextRunTime_pos_bound job.Schedule now hz
    subst h
    simp only [maxIterations, nsPerSecond] at h2
    unfold yearNs nsPerSecond
    omega

/-- C9: the computed sleep duration is the minimum of `nextRunTime − now`
over the jobs whose `nextRunTime` resolved (jobs reporting the zero
instant are skipped); when there are no such durations — no jobs, or
every `nextRunTime` hit the cap — it is the one-year sentinel. -/
theorem timeUntilNextJob_is_min {τ : Type} (jobs : List (Job τ)) (now : Nat) :
    (nextDurations jobs now = [] ∧ timeUntilNextJob jobs now = yearNs)
    ∨ (timeUntilNextJob jobs now ∈ nextDurations jobs now
        ∧ ∀ d ∈ nextDurations jobs now, timeUntilNextJob jobs now ≤ d) := by
  rw [timeUntilNextJob_eq_foldl]
  cases hds : nextDurations jobs now with
  | nil => exact .inl ⟨rfl, rfl⟩
  | cons d0 ds =>
    right
    constructor
    · rcases foldl_min_mem (d0 :: ds) yearNs with h | h
      · exfalso
        have hle := foldl_min_le (d0 :: ds) yearNs d0 (List.mem_cons_self d0 ds)
        have hlt := (nextDurations_pos_lt_year jobs now d0
          (by rw [hds]; exact List.mem_cons_self d0 ds)).2
        rw [h] at hle
        omega
      · exact h
    · intro d hd
      exact foldl_min_le (d0 :: ds) yearNs d hd

theorem lookup_mem : ∀ (l : List (List Char × Int)) (k : List Char) (v : Int),
    l.lookup k = some v → ∃ p ∈ l, p.2 = v := by
  intro l k v
  induction l with
  | nil => intro h; simp [List.lookup] at h
  | cons p ps ih =>
    obtain ⟨pk, pv⟩ := p
    intro h
    cases hbeq : (k == pk) <;> simp [List.lookup, hbeq] at h
    · obtain ⟨q, hq, hq2⟩ := ih h
      exact ⟨q, List.mem_cons_of_mem _ hq, hq2⟩
    · exact ⟨(pk, pv), List.mem_cons_self _ _, h⟩

theorem parseValue_ok_bounds (part : List Char) (minVal maxVal v : Int)
    (table : List (List Char × Int))
    (htab : ∀ p ∈ table, minVal ≤ p.2 ∧ p.2 ≤ maxVal)
    (h : parseValue part minVal maxVal table = .ok v) :
    minVal ≤ v ∧ v ≤ maxVal := by
  unfold parseValue at h
  split at h
  · rename_i num heq
    injection h with h
    subst h
    obtain ⟨p, hp, hp2⟩ := lookup_mem table (normalizeName part) num heq
    exact hp2 ▸ htab p hp
  · split at h
    · cases h
    · split at h
      · cases h
      · rename_i num hnum hrange
        injection h with h
        subst h
        omega


theorem parseRange_ok_bounds (part : List Char) (minVal maxVal : Int)
    (table : List (List Char × Int)) (vs : List Int)
    (htab : ∀ p ∈ table, minVal ≤ p.2 ∧ p.2 ≤ maxVal)
    (h : parseRange part minVal maxVal table = .ok vs) :
    ∀ v ∈ vs, minVal ≤ v ∧ v ≤ maxVal := by
  unfold parseRange at h
  split at h
  · rename_i s1 s2 hsp
    split at h
    · cases h
    · rename_i startVal heq1
      split at h
      · cases h
      · rename_i endVal heq2
        have hb1 := parseValue_ok_bounds s1 minVal maxVal startVal table htab heq1
        have hb2 := parseValue_ok_bounds s2 minVal maxVal endVal table htab heq2
        split at h
        · injection h with h
          subst h
          intro v hv
          rcases List.mem_append.mp hv with hv | hv <;>
            (rw [mem_intRange] at hv; omega)
        · injection h with h
          subst h
          intro v hv
          rw [mem_intRange] at hv
          omega
  · cases h

theorem parts_foldlM_ok_bounds (minVal maxVal : Int) (table : List (List Char × Int))
    (htab : ∀ p ∈ table, minVal ≤ p.2 ∧ p.2 ≤ maxVal) :
    ∀ (parts : List (List Char)) (acc vs : List Int),
      (∀ v ∈ acc, minVal ≤ v ∧ v ≤ maxVal) →
      parts.foldlM
        (fun values part =>
          if part.contains '-' then
            (parseRange part minVal maxVal table).map
              (fun rangeValues => values ++ rangeValues)
          else
            (parseValue part minVal maxVal table).map
              (fun num => values ++ [num]))
        acc = .ok vs →
      ∀ v ∈ vs, minVal ≤ v ∧ v ≤ maxVal := by
  intro parts
  induction parts with
  | nil =>
    intro acc vs hacc h
    rw [List.foldlM_nil] at h
    injection h with h
    subst h
    exact hacc
  | cons p ps ih =>
    intro acc vs hacc h
    rw [List.foldlM_cons] at h
    by_cases hd : p.contains '-' = true
    · rw [if_pos hd] at h
      cases hr : parseRange p minVal maxVal table with
      | error err => rw [hr] at h; cases h
      | ok rv =>
        rw [hr] at h
        refine ih (acc ++ rv) vs ?_ h
        intro v hv
        rcases List.mem_append.mp hv with hv | hv
        · exact hacc v hv
        · exact parseRange_ok_bounds p minVal maxVal table rv htab hr v hv
    · rw [if_neg hd] at h
      cases hr : parseValue p minVal maxVal table with
      | error err => rw [hr] at h; cases h
      | ok num =>
        rw [hr] at h
        refine ih (acc ++ [num]) vs ?_ h
        intro v hv
        rcases List.mem_append.mp hv with hv | hv
        · exact hacc v hv
        · rw [List.mem_singleton] at hv
          subst hv
          exact parseValue_ok_bounds p minVal maxVal v table htab hr


theorem parseField_ok_bounds :
    ∀ (fuel : Nat) (field : List Char) (minVal maxVal : Int)
      (table : List (List Char × Int)) (vs : List Int),
      (∀ p ∈ table, minVal ≤ p.2 ∧ p.2 ≤ maxVal) →
      parseField fuel field minVal maxVal table = .ok vs →
      ∀ v ∈ vs, minVal ≤ v ∧ v ≤ maxVal := by
  intro fuel
  induction fuel with
  | zero =>
    intro field minVal maxVal table vs htab h
    unfold parseField at h
    split at h
    · injection h with h
      subst h
      intro v hv
      rw [mem_intRange] at hv
      omega
    · split at h
      · split at h
        · cases h
        · cases h
      · exact parts_foldlM_ok_bounds minVal maxVal table htab _ [] vs
          (fun v hv => absurd hv (List.not_mem_nil v)) h
  | succ f ih =>
    intro field minVal maxVal table vs htab h
    unfold parseField at h
    split at h
    · injection h with h
      subst h
      intro v hv
      rw [mem_intRange] at hv
      omega
    · split at h
      · split at h
        · rename_i base stepStr hsp
          split at h
          · cases h
          · rename_i f2 hf2
            obtain rfl : f2 = f := by omega
            split at h
            · cases h
            · rename_i baseValues hbase
              split at h
              · cases h
              · rename_i step hstep
                split at h
                · cases h
                · injection h with h
                  subst h
                  intro v hv
                  exact ih base minVal maxVal table baseValues htab hbase v
                    (List.mem_of_mem_filter hv)
        · cases h
      · exact parts_foldlM_ok_bounds minVal maxVal table htab _ [] vs
          (fun v hv => absurd hv (List.not_mem_nil v)) h


/-- C4: whenever `ParseCronExpression` succeeds, every member of each of
the six returned field sets lies within that field's legal range —
seconds [0,59], minutes [0,59], hours [0,23], day-of-month [1,31], month
[1,12], day-of-week [0,6]; failure is atomic by construction (the result
type is either a full expression or an error, with no partial value). -/
theorem parse_ok_fields_within_range (s : String) (e : CronExpression)
    (h : ParseCronExpression s = .ok e) :
    (∀ v ∈ e.Seconds, 0 ≤ v ∧ v ≤ 59) ∧ (∀ v ∈ e.Minutes, 0 ≤ v ∧ v ≤ 59)
    ∧ (∀ v ∈ e.Hours, 0 ≤ v ∧ v ≤ 23) ∧ (∀ v ∈ e.DayOfMonth, 1 ≤ v ∧ v ≤ 31)
    ∧ (∀ v ∈ e.Month, 1 ≤ v ∧ v ≤ 12) ∧ (∀ v ∈ e.DayOfWeek, 0 ≤ v ∧ v ≤ 6) := by
  have hnil : ∀ (lo hi : Int), ∀ p ∈ ([] : List (List Char × Int)), lo ≤ p.2 ∧ p.2 ≤ hi := by
    intro lo hi p hp
    cases hp
  have hmonth : ∀ p ∈ monthNameToNumber, 1 ≤ p.2 ∧ p.2 ≤ 12 := by decide
  have hday : ∀ p ∈ dayNameToNumber, 0 ≤ p.2 ∧ p.2 ≤ 6 := by decide
  unfold ParseCronExpression at h
  by_cases h6 : (goFields s).length = 6
  · rw [dif_pos h6] at h
    split at h
    · cases h
    · rename_i seconds hp0
      split at h
      · cases h
      · rename_i minutes hp1
        split at h
        · cases h
        · rename_i hours hp2
          split at h
          · cases h
          · rename_i dayOfMonth hp3
            split at h
            · cases h
            · rename_i month hp4
              split at h
              · cases h
              · rename_i dayOfWeek hp5
                injection h with h
                subst h
                exact ⟨parseField_ok_bounds 1 _ 0 59 [] seconds (hnil 0 59) hp0,
                  parseField_ok_bounds 1 _ 0 59 [] minutes (hnil 0 59) hp1,
                  parseField_ok_bounds 1 _ 0 23 [] hours (hnil 0 23) hp2,
                  parseField_ok_bounds 1 _ 1 31 [] dayOfMonth (hnil 1 31) hp3,
                  parseField_ok_bounds 1 _ 1 12 monthNameToNumber month hmonth hp4,
                  parseField_ok_bounds 1 _ 0 6 dayNameToNumber dayOfWeek hday hp5⟩
  · rw [dif_neg h6] at h
    cases h

/-- Witness for C4 at `"30 15 14 1 1 *"`, whose seconds set is `[30]`. -/
theorem parse_ok_fields_within_range_witness :
    (0 : Int) ≤ 30 ∧ (30 : Int) ≤ 59 :=
  (parse_ok_fields_within_range ("30 15 14 1 1 *")
    (CronExpression.mk [30] [15] [14] [1] [1] [0, 1, 2, 3, 4, 5, 6]) (by decide)).1
    30 (by decide)

end Cronjob
